import Mathlib

/-!
# Verification of the ranking-pipeline specification against the source

Shallow embedding of the core ranking pipeline of the repository
(`backend/prod/`): query normalization (`utils.py`), lexical recall and
ML search (`ml_search.py`, `ai_model.py`), semantic search
(`ai_model.py`, `hybrid_search.py`), the catalog left join, the response
formatter (`main.py`) and the catalog-only search (`service.py`).

Modelling conventions:
* Python strings are `List Char`; a possibly-non-string input is
  `Option (List Char)` (`none` models a non-`str` value).
* NumPy float arrays are `List ℚ`: the verified properties are order,
  length and selection properties that hold in exact arithmetic.
* `np.argsort` is called with its default quicksort, whose tie order
  NumPy documents as unspecified, so the theorems only assume its
  contract (`IsArgsortAsc` / `IsArgsortDesc`): the result is a
  permutation of the row indices sorted by key, with no tie rule.
  `argsortAsc` / `argsortDesc` below are one admissible executable
  implementation (index-stable), used only to instantiate concrete
  witnesses and counterexamples — where they are also faithful to the
  running code, because NumPy's quicksort degenerates to a stable
  insertion sort below its small-array threshold — and inside
  `hybrid_semantic_search`, whose verified property does not involve
  the ordering.
* External learned models (TF-IDF vectorizer + cosine, SBERT + FAISS,
  CatBoost, rerankers) are oracles passed as function parameters; the
  embedded code is everything the repository itself does around them.
* Unicode lowercasing and NFKD decomposition are modelled by explicit
  character tables covering the character classes that the code's
  regexes mention (ASCII, the Turkish letters of `[^0-9a-zçğıöşü\s]`,
  and Python's whitespace set); characters outside the tables map to
  themselves, which agrees with the real maps on every character class
  the pipeline can distinguish.
-/

/-! ## Query normalizer (`utils.py` 12-30, `ai_model.py` 132-150) -/

/-- Code points Python treats as whitespace (`str.strip`, regex `\s`). -/
def wsCodes : List Nat :=
  [9, 10, 11, 12, 13, 28, 29, 30, 31, 32, 133, 160, 5760,
   8192, 8193, 8194, 8195, 8196, 8197, 8198, 8199, 8200, 8201, 8202,
   8232, 8233, 8239, 8287, 12288]

/-- Python whitespace test used by `strip()` and regex `\s`. -/
def isSpaceChar (c : Char) : Bool := wsCodes.contains c.toNat

/-- Python `str.lower`, per character (table for ASCII `A`-`Z` and the
Turkish uppercase letters; `İ` (U+0130) lowers to `i` plus combining dot
above exactly as in CPython). Other characters are unchanged. -/
def pyLowerChar (c : Char) : List Char :=
  if 65 ≤ c.toNat ∧ c.toNat ≤ 90 then [Char.ofNat (c.toNat + 32)]
  else if c.toNat = 199 then ['ç']
  else if c.toNat = 286 then ['ğ']
  else if c.toNat = 304 then ['i', Char.ofNat 775]
  else if c.toNat = 214 then ['ö']
  else if c.toNat = 350 then ['ş']
  else if c.toNat = 220 then ['ü']
  else [c]

/-- Python `unicodedata.normalize("NFKD", ·)`, per character: canonical
decompositions of the lowercase Turkish letters the code's character
class names (`ç ğ ö ş ü`; `ı` U+0131 has no decomposition). -/
def nfkdChar (c : Char) : List Char :=
  if c.toNat = 231 then ['c', Char.ofNat 807]
  else if c.toNat = 287 then ['g', Char.ofNat 774]
  else if c.toNat = 246 then ['o', Char.ofNat 776]
  else if c.toNat = 351 then ['s', Char.ofNat 807]
  else if c.toNat = 252 then ['u', Char.ofNat 776]
  else [c]

/-- Python `str.strip()`: drop whitespace from both ends. -/
def pyStrip (l : List Char) : List Char :=
  ((l.dropWhile isSpaceChar).reverse.dropWhile isSpaceChar).reverse

/-- Regex `re.sub(r"\s+", " ", s)`: replace each maximal whitespace run by one
space.  The boolean argument records whether the previous character was
whitespace (i.e. we are inside a run). -/
def collapseGo : Bool → List Char → List Char
  | _, [] => []
  | prevWs, c :: rest =>
    if isSpaceChar c then
      if prevWs then collapseGo true rest else ' ' :: collapseGo true rest
    else c :: collapseGo false rest

/-- First substitution of the normalizers: the punctuation class
(underscore, slash, hyphen, backslash in `norm_query`; underscore,
hyphen, slash in `norm_text`) becomes a space. -/
def sub1 (punct : List Char) (c : Char) : Char :=
  if c ∈ punct then ' ' else c

/-- Membership in the keep-class `[0-9a-zçğıöşü\s]`. -/
def inClassQ (c : Char) : Bool :=
  (48 ≤ c.toNat && c.toNat ≤ 57) || (97 ≤ c.toNat && c.toNat ≤ 122) ||
  (c.toNat = 231 || c.toNat = 287 || c.toNat = 305 || c.toNat = 246 ||
   c.toNat = 351 || c.toNat = 252) ||
  isSpaceChar c

/-- Regex `re.sub(r"[^0-9a-zçğıöşü\s]", " ", s)`: anything outside the class
becomes a space. -/
def sub2 (c : Char) : Char := if inClassQ c then c else ' '

/-- The whole normalizer pipeline shared by `norm_query` and `norm_text`
(`utils.py` 12-30): lower, strip, NFKD, punctuation to space, class
filter to space, collapse whitespace runs, strip. -/
def normPipe (punct : List Char) (s : List Char) : List Char :=
  pyStrip (collapseGo false
    ((((pyStrip (s.flatMap pyLowerChar)).flatMap nfkdChar).map
        (sub1 punct)).map sub2))

/-- Source `utils.norm_query` (and identically `ai_model.norm_query`). -/
def norm_query (s : List Char) : List Char :=
  normPipe ['_', '/', '-', '\\'] s

/-- Source `utils.norm_text` (and identically `ai_model.norm_text`); the
punctuation class omits the backslash but is otherwise the same. -/
def norm_text (s : List Char) : List Char :=
  normPipe ['_', '-', '/'] s

/-- Wrapper: `norm_query` on an arbitrary value: `if not isinstance(s, str):
return ""` — a non-string (`none`) normalizes to the empty string. -/
def norm_query_py : Option (List Char) → List Char
  | none => []
  | some s => norm_query s

/-- Wrapper: `norm_text` on an arbitrary value, with the same non-string guard. -/
def norm_text_py : Option (List Char) → List Char
  | none => []
  | some s => norm_text s

/-- Characters that can appear (besides the space) in a normalized
string: digits, ASCII lowercase, and dotless `ı` (everything else in the
keep-class is decomposed away by NFKD before the class filter runs). -/
def safeChar (c : Char) : Prop :=
  (48 ≤ c.toNat ∧ c.toNat ≤ 57) ∨ (97 ≤ c.toNat ∧ c.toNat ≤ 122) ∨
  c.toNat = 305

/-- The precomposed letters that NFKD removes. -/
def badChar (c : Char) : Prop :=
  c.toNat = 231 ∨ c.toNat = 287 ∨ c.toNat = 246 ∨ c.toNat = 351 ∨
  c.toNat = 252

/-- No two adjacent whitespace characters. -/
def NoWW (l : List Char) : Prop :=
  l.Chain' (fun a b => ¬(isSpaceChar a = true ∧ isSpaceChar b = true))

/-! ## Score fusion: `minmax` (`utils.py` 32-38, `ai_model.py` 152-158) -/

/-- The `1e-12` epsilon of `minmax`. -/
def minmaxEps : ℚ := 1 / 1000000000000

/-- Source `utils.minmax`: empty stays empty; if `max > min` rescale by
`(x - min) / (max - min + 1e-12)`; otherwise (all equal) all zeros. -/
def minmax (a : List ℚ) : List ℚ :=
  match a with
  | [] => []
  | x :: xs =>
    let mn := xs.foldl min x
    let mx := xs.foldl max x
    if mn < mx then (x :: xs).map (fun v => (v - mn) / (mx - mn + minmaxEps))
    else (x :: xs).map (fun _ => 0)

/-! ## Argsort (`np.argsort`, default unstable quicksort) -/

/-- Contract of `np.argsort v` (ascending, default `kind`): some
permutation of the row indices, ordered by ascending value; the order of
exact ties is unspecified (NumPy's default quicksort is not stable). -/
def IsArgsortAsc (v : List ℚ) (ord : List ℕ) : Prop :=
  ord.Perm (List.range v.length) ∧
  ord.Pairwise (fun i j => v.getD i 0 ≤ v.getD j 0)

/-- Contract of `np.argsort (-v)`: some permutation of the row indices,
ordered by descending value; tie order unspecified. -/
def IsArgsortDesc (v : List ℚ) (ord : List ℕ) : Prop :=
  ord.Perm (List.range v.length) ∧
  ord.Pairwise (fun i j => v.getD j 0 ≤ v.getD i 0)

instance (v : List ℚ) (ord : List ℕ) : Decidable (IsArgsortAsc v ord) :=
  inferInstanceAs (Decidable (_ ∧ _))

instance (v : List ℚ) (ord : List ℕ) : Decidable (IsArgsortDesc v ord) :=
  inferInstanceAs (Decidable (_ ∧ _))

/-- Auxiliary order on indices: by value ascending, ties by original
index — underlies the executable argsort instance below. -/
def keyRelAsc (v : List ℚ) (i j : ℕ) : Prop :=
  v.getD i 0 < v.getD j 0 ∨ (v.getD i 0 = v.getD j 0 ∧ i ≤ j)

/-- Auxiliary order on indices: by value descending, ties by original
index — underlies the executable argsort instance below. -/
def keyRelDesc (v : List ℚ) (i j : ℕ) : Prop :=
  v.getD j 0 < v.getD i 0 ∨ (v.getD i 0 = v.getD j 0 ∧ i ≤ j)

instance (v : List ℚ) : DecidableRel (keyRelAsc v) := fun _ _ =>
  inferInstanceAs (Decidable (_ ∨ _))

instance (v : List ℚ) : DecidableRel (keyRelDesc v) := fun _ _ =>
  inferInstanceAs (Decidable (_ ∨ _))

instance (v : List ℚ) : IsTotal ℕ (keyRelAsc v) where
  total i j := by
    rcases lt_trichotomy (v.getD i 0) (v.getD j 0) with h | h | h
    · exact Or.inl (Or.inl h)
    · rcases Nat.le_total i j with hij | hij
      · exact Or.inl (Or.inr ⟨h, hij⟩)
      · exact Or.inr (Or.inr ⟨h.symm, hij⟩)
    · exact Or.inr (Or.inl h)

instance (v : List ℚ) : IsTrans ℕ (keyRelAsc v) where
  trans i j k hij hjk := by
    rcases hij with h1 | ⟨h1, h1'⟩ <;> rcases hjk with h2 | ⟨h2, h2'⟩
    · exact Or.inl (h1.trans h2)
    · exact Or.inl (h2 ▸ h1)
    · exact Or.inl (h1 ▸ h2)
    · exact Or.inr ⟨h1.trans h2, h1'.trans h2'⟩

instance (v : List ℚ) : IsTotal ℕ (keyRelDesc v) where
  total i j := by
    rcases lt_trichotomy (v.getD i 0) (v.getD j 0) with h | h | h
    · exact Or.inr (Or.inl h)
    · rcases Nat.le_total i j with hij | hij
      · exact Or.inl (Or.inr ⟨h, hij⟩)
      · exact Or.inr (Or.inr ⟨h.symm, hij⟩)
    · exact Or.inl (Or.inl h)

instance (v : List ℚ) : IsTrans ℕ (keyRelDesc v) where
  trans i j k hij hjk := by
    rcases hij with h1 | ⟨h1, h1'⟩ <;> rcases hjk with h2 | ⟨h2, h2'⟩
    · exact Or.inl (h2.trans h1)
    · exact Or.inl (h2 ▸ h1)
    · exact Or.inl (h1.symm ▸ h2)
    · exact Or.inr ⟨h1.trans h2, h1'.trans h2'⟩

/-- One admissible implementation of `IsArgsortAsc` (index-stable
insertion sort), used to instantiate witnesses and counterexamples; on
the short arrays they use it coincides with NumPy's behaviour. -/
def argsortAsc (v : List ℚ) : List ℕ :=
  List.insertionSort (keyRelAsc v) (List.range v.length)

/-- One admissible implementation of `IsArgsortDesc` (index-stable),
with the same witness-only role as `argsortAsc`. -/
def argsortDesc (v : List ℚ) : List ℕ :=
  List.insertionSort (keyRelDesc v) (List.range v.length)

/-! ## Lexical recall (`ml_search.py` 19-29, `ai_model.py` 171-181) -/

/-- Selection `np.argsort(sims)[::-1][:topk]` of `retrieve_ids`;
`argsort` is the oracle for `np.argsort`, constrained in the theorems
only by `IsArgsortAsc`. -/
def retrieveOrder (argsort : List ℚ → List ℕ) (sims : List ℚ)
    (topk : ℕ) : List ℕ :=
  (argsort sims).reverse.take topk

/-- Source `retrieve_ids`: normalize, empty query short-circuits to empty,
otherwise rank the cosine-similarity array and return parallel ID and
score sequences.  `simsOf` is the oracle for
`cosine_similarity(vec.transform([q]), X_corpus)[0]`, the similarity of
the normalized query against every corpus row (row-indexed like
`id_list`). -/
def retrieve_ids (argsort : List ℚ → List ℕ)
    (simsOf : List Char → List ℚ) (id_list : List String)
    (query : Option (List Char)) (topk : ℕ) : List String × List ℚ :=
  let q := norm_query_py query
  if q = [] then ([], [])
  else
    let sims := simsOf q
    let order := retrieveOrder argsort sims topk
    (order.map (fun i => id_list.getD i ""),
     order.map (fun i => sims.getD i 0))

/-! ## ML fusion and top-K (`ml_search.py` 84-105, `ai_model.py` 236-255) -/

/-- Selection `order_idx = np.argsort(-final)[:topk_final]`: the top-K
selection of the fusion stage, on the fused score array
`final = 0.3*minmax(s_click) + 0.7*minmax(s_order)`; `argsortNeg` is
the oracle for `np.argsort (-·)`, constrained in the theorems only by
`IsArgsortDesc`. -/
def select_top_k (argsortNeg : List ℚ → List ℕ) (final : List ℚ)
    (k : ℕ) : List ℕ :=
  (argsortNeg final).take k

/-- The rows `ml_search` returns, projected to (original candidate row
index, fused score): the selected rows are inner-joined on `_row` and
then sorted by `_row` — i.e. by original candidate index — before being
returned (`.join(scores_df, on="_row").sort("_row")`). -/
def ml_search_rows (argsortNeg : List ℚ → List ℕ) (final : List ℚ)
    (k : ℕ) : List (ℕ × ℚ) :=
  ((List.range final.length).filter
      (fun i => decide (i ∈ select_top_k argsortNeg final k))).map
    (fun i => (i, final.getD i 0))

/-! ## Catalog snapshot rows and the left join -/

/-- A row of the product snapshot `fe` (the columns `load_feature_data`
selects, `ai_model.py` 111-116).  Every attribute other than the key is
nullable, both in the parquet source and after a left-join miss. -/
structure FeRow where
  content_id_hashed : String
  content_title : Option String := none
  image_url : Option String := none
  selling_price : Option ℚ := none
  original_price : Option ℚ := none
  discounted_price : Option ℚ := none
  content_rate_avg : Option ℚ := none
  content_review_count : Option ℤ := none
  content_rate_count : Option ℤ := none
  merchant_count : Option ℚ := none
  level1_category_name : Option String := none
  level2_category_name : Option String := none
  leaf_category_name : Option String := none
deriving DecidableEq

/-- The `fill_null` block of `ml_search` (`ai_model.py` 213-226): all
numeric columns (including `content_rate_avg`) default to `0`/`0.0`,
the title to the placeholder `"Ürün"`, the category and image columns to
the empty string. -/
def fillRowML (r : FeRow) : FeRow :=
  { r with
    selling_price := some (r.selling_price.getD 0),
    original_price := some (r.original_price.getD 0),
    discounted_price := some (r.discounted_price.getD 0),
    content_rate_avg := some (r.content_rate_avg.getD 0),
    content_review_count := some (r.content_review_count.getD 0),
    content_rate_count := some (r.content_rate_count.getD 0),
    merchant_count := some (r.merchant_count.getD 0),
    content_title := some (r.content_title.getD "Ürün"),
    level1_category_name := some (r.level1_category_name.getD ""),
    level2_category_name := some (r.level2_category_name.getD ""),
    leaf_category_name := some (r.leaf_category_name.getD ""),
    image_url := some (r.image_url.getD "") }

/-- Polars left join of the requested ID column with the snapshot,
followed by the `fill_null` defaults (`ai_model.py` 213-226): every
requested ID emits its matching snapshot rows, or one all-null row
(key preserved) if absent; left order is preserved. -/
def joinCatalogML (ids : List String) (fe : List FeRow) : List FeRow :=
  ids.flatMap (fun id =>
    match fe.filter (fun r => r.content_id_hashed == id) with
    | [] => [fillRowML { content_id_hashed := id }]
    | rs => rs.map fillRowML)

/-- Single-ID left lookup used when snapshot keys are unique. -/
def lookupRow (fe : List FeRow) (id : String) : FeRow :=
  (fe.find? (fun r => r.content_id_hashed == id)).getD
    { content_id_hashed := id }

/-! ## Dense recall and semantic pipeline (`ai_model.py` 259-381) -/

/-- Source `sbert_recall` (`ai_model.py` 259-272): guard on loaded models, then
normalize; empty query short-circuits; otherwise the SBERT-encode +
FAISS search oracle produces the parallel (ids, scores) candidate
lists.  `loaded` models `sbert_model/faiss_index/sbert_ids` all being
non-`None`. -/
def sbert_recall (loaded : Bool)
    (search : List Char → ℕ → List String × List ℚ)
    (query : Option (List Char)) (topk : ℕ) : List String × List ℚ :=
  if loaded = false then ([], [])
  else
    let q := norm_text_py query
    if q = [] then ([], []) else search q topk

/-- Source `build_doc_text` (`ai_model.py` 288-297): title (skipped when falsy
or the placeholder), level2 category (skipped when falsy), leaf category
(skipped when falsy or equal to level2), single-space joined, with the
placeholder `"Ürün"` when nothing remains. -/
def build_doc_text (title level2_category leaf_category : String) :
    String :=
  let parts : List String := []
  let parts := if title ≠ "" ∧ title ≠ "Ürün" then parts ++ [title]
    else parts
  let parts := if level2_category ≠ "" then parts ++ [level2_category]
    else parts
  let parts :=
    if leaf_category ≠ "" ∧ leaf_category ≠ level2_category then
      parts ++ [leaf_category]
    else parts
  if parts = [] then "Ürün" else String.intercalate " " parts

/-- Modelled from the spec: the reranker document text as §4.5 words it —
concatenate the title (skipped when it is the catalog placeholder), the
second-level category and the leaf category (skipped when identical to
the second-level one), joined with single spaces, falling back to the
placeholder when all parts are empty.  An empty part contributes nothing
to the concatenation. -/
def doc_text_spec (title level2_category leaf_category : String) :
    String :=
  let parts : List String :=
    (if title = "" ∨ title = "Ürün" then [] else [title]) ++
    (if level2_category = "" then [] else [level2_category]) ++
    (if leaf_category = "" ∨ leaf_category = level2_category then []
     else [leaf_category])
  if parts = [] then "Ürün" else String.intercalate " " parts

/-- Source `hybrid_semantic_search` (`ai_model.py` 299-381), projected to the
(id, score) content of the returned rows, as an `Except` because Python
can raise.  `loaded`/`fe?` model the availability guard of lines
301-302 (which does **not** include the reranker); when recall is
non-empty the code calls `reranker.score(query, doc_texts)` at line 338
**before** the `reranker is not None` test of line 344, so a `none`
reranker raises `AttributeError` and the SBERT-only fallback branch of
lines 350-353 is unreachable.  With a reranker present, lines 344-368
select `np.argsort(-reranker_scores)[:return_k]` and emit rows in rank
order. -/
def hybrid_semantic_search (loaded : Bool) (fe? : Option (List FeRow))
    (reranker : Option (List Char → List String → List ℚ))
    (search : List Char → ℕ → List String × List ℚ)
    (query : Option (List Char)) (recall_k return_k : ℕ) :
    Except String (List (String × ℚ)) :=
  match fe?, loaded with
  | some fe, true =>
    let res := sbert_recall true search query recall_k
    let ids := res.1
    if ids = [] then Except.ok []
    else
      let df := ids.map (lookupRow fe)
      let docs := df.map (fun r =>
        build_doc_text (r.content_title.getD "")
          (r.level2_category_name.getD "")
          (r.leaf_category_name.getD ""))
      match reranker with
      | none =>
        Except.error "AttributeError: NoneType object has no attribute score"
      | some score =>
        let rs := score (query.getD []) docs
        let order := (argsortDesc rs).take return_k
        Except.ok (order.map (fun i => (ids.getD i "", rs.getD i 0)))
  | _, _ => Except.ok []

/-! ## Response formatting (`main.py` 87-117) -/

/-- Python `round(y, 1)` (banker's rounding to one decimal), in exact
arithmetic. -/
def roundHalfEven (y : ℚ) : ℤ :=
  let f := Int.floor y
  if y - f < 1 / 2 then f
  else if (1 : ℚ) / 2 < y - f then f + 1
  else if f % 2 = 0 then f else f + 1

/-- Round to one decimal place. -/
def round1 (q : ℚ) : ℚ := (roundHalfEven (10 * q) : ℚ) / 10

/-- The discount computation of `format_product_response` (`main.py`
94-98): `original = product.get('original_price', 0)` etc. may be
`None` (falsy); the guard is
`if original and selling and original > selling and original > 0`. -/
def format_discount (original selling : Option ℚ) : Option ℚ :=
  match original, selling with
  | some o, some s =>
    if o ≠ 0 ∧ s ≠ 0 ∧ s < o ∧ 0 < o then
      some (round1 ((o - s) / o * 100))
    else none
  | _, _ => none

/-! ## Catalog-only search (`service.py` 24-52) -/

/-- Sort key of `db_search`: rating (nulls as 0) then review count, both
descending (`service.py` 45-48). -/
def ratingRel (a b : FeRow) : Prop :=
  b.content_rate_avg.getD 0 < a.content_rate_avg.getD 0 ∨
  (a.content_rate_avg.getD 0 = b.content_rate_avg.getD 0 ∧
    b.content_review_count.getD 0 ≤ a.content_review_count.getD 0)

instance : DecidableRel ratingRel := fun _ _ =>
  inferInstanceAs (Decidable (_ ∨ _))

/-- Source `service.db_search`: if the query is non-blank, filter by the
substring-match predicate (`matchRow` is the oracle for the four
`str.contains(query_lower)` tests); with matches, subsample to at most
`2*limit` rows, sort by rating/review count, return the first `limit`;
with no matches, or a blank query, return `min(limit, len(df))` randomly
sampled products.  `sampler xs n` is the oracle for `xs.sample(n)`
(`n ≤ xs.length` always holds where it is called). -/
def db_search (sampler : List FeRow → ℕ → List FeRow)
    (matchRow : FeRow → Bool) (df : List FeRow) (query : List Char)
    (limit : ℕ) : List FeRow :=
  if pyStrip (query.flatMap pyLowerChar) ≠ [] then
    let filtered := df.filter matchRow
    if 0 < filtered.length then
      let sample_size := min (limit * 2) filtered.length
      let sampled :=
        if sample_size < filtered.length then sampler filtered sample_size
        else filtered
      (List.insertionSort ratingRel sampled).take limit
    else sampler df (min limit df.length)
  else sampler df (min limit df.length)

/-! ## Character-level lemmas for the normalizer -/

theorem isSpaceChar_iff (c : Char) :
    isSpaceChar c = true ↔ c.toNat ∈ wsCodes :=
  List.elem_iff

theorem safe_not_ws {c : Char} (h : safeChar c) : isSpaceChar c = false := by
  rw [Bool.eq_false_iff]
  intro hw
  have hm := (isSpaceChar_iff c).mp hw
  simp only [wsCodes, List.mem_cons, List.not_mem_nil, or_false] at hm
  rcases h with ⟨h1, h2⟩ | ⟨h1, h2⟩ | h1 <;> omega

theorem safe_lower {c : Char} (h : safeChar c) : pyLowerChar c = [c] := by
  unfold pyLowerChar
  rcases h with ⟨h1, h2⟩ | ⟨h1, h2⟩ | h1 <;>
    (repeat rw [if_neg (by omega)])

theorem safe_nfkd {c : Char} (h : safeChar c) : nfkdChar c = [c] := by
  unfold nfkdChar
  rcases h with ⟨h1, h2⟩ | ⟨h1, h2⟩ | h1 <;>
    (repeat rw [if_neg (by omega)])

theorem safe_inClass {c : Char} (h : safeChar c) : inClassQ c = true := by
  unfold inClassQ
  simp only [Bool.or_eq_true, Bool.and_eq_true, decide_eq_true_eq]
  rcases h with ⟨h1, h2⟩ | ⟨h1, h2⟩ | h1
  · exact Or.inl (Or.inl (Or.inl ⟨h1, h2⟩))
  · exact Or.inl (Or.inl (Or.inr ⟨h1, h2⟩))
  · exact Or.inl (Or.inr (by omega))

theorem nfkd_not_bad {c b : Char} (hb : b ∈ nfkdChar c) : ¬ badChar b := by
  unfold nfkdChar at hb
  split_ifs at hb with h1 h2 h3 h4 h5 <;>
    simp only [List.mem_cons, List.not_mem_nil, or_false] at hb
  · rcases hb with rfl | rfl <;> (unfold badChar; decide)
  · rcases hb with rfl | rfl <;> (unfold badChar; decide)
  · rcases hb with rfl | rfl <;> (unfold badChar; decide)
  · rcases hb with rfl | rfl <;> (unfold badChar; decide)
  · rcases hb with rfl | rfl <;> (unfold badChar; decide)
  · subst hb; unfold badChar; omega

theorem safe_of_class {c : Char} (h1 : inClassQ c = true)
    (h2 : isSpaceChar c = false) (h3 : ¬ badChar c) : safeChar c := by
  unfold inClassQ at h1
  unfold badChar at h3
  simp only [Bool.or_eq_true, Bool.and_eq_true, decide_eq_true_eq] at h1
  rcases h1 with ((⟨a, b⟩ | ⟨a, b⟩) | ht) | hws
  · exact Or.inl ⟨a, b⟩
  · exact Or.inr (Or.inl ⟨a, b⟩)
  · exact Or.inr (Or.inr (by omega))
  · rw [h2] at hws; cases hws

/-! ## Structural lemmas: whitespace collapsing and stripping -/

theorem collapseGo_nil (b : Bool) : collapseGo b [] = [] := rfl

theorem collapseGo_cons (b : Bool) (x : Char) (rest : List Char) :
    collapseGo b (x :: rest) =
      if isSpaceChar x then
        if b then collapseGo true rest else ' ' :: collapseGo true rest
      else x :: collapseGo false rest := rfl

theorem collapseGo_true_cons_ws (x : Char) (rest : List Char)
    (hx : isSpaceChar x = true) :
    collapseGo true (x :: rest) = collapseGo true rest := by
  rw [collapseGo_cons, if_pos hx, if_pos rfl]

theorem collapseGo_false_cons_ws (x : Char) (rest : List Char)
    (hx : isSpaceChar x = true) :
    collapseGo false (x :: rest) = ' ' :: collapseGo true rest := by
  rw [collapseGo_cons, if_pos hx]
  rfl

theorem collapseGo_cons_not_ws (b : Bool) (x : Char) (rest : List Char)
    (hx : isSpaceChar x = false) :
    collapseGo b (x :: rest) = x :: collapseGo false rest := by
  rw [collapseGo_cons, if_neg (by simp [hx])]

theorem mem_collapseGo {c : Char} :
    ∀ (b : Bool) (l : List Char), c ∈ collapseGo b l →
      c = ' ' ∨ (c ∈ l ∧ isSpaceChar c = false) := by
  intro b l
  induction l generalizing b with
  | nil => intro h; rw [collapseGo_nil] at h; cases h
  | cons x rest ih =>
    intro h
    by_cases hx : isSpaceChar x = true
    · cases b with
      | true =>
        rw [collapseGo_true_cons_ws x rest hx] at h
        rcases ih true h with h' | ⟨hm, hww⟩
        · exact Or.inl h'
        · exact Or.inr ⟨List.mem_cons_of_mem x hm, hww⟩
      | false =>
        rw [collapseGo_false_cons_ws x rest hx] at h
        rcases List.mem_cons.mp h with rfl | h'
        · exact Or.inl rfl
        · rcases ih true h' with h'' | ⟨hm, hww⟩
          · exact Or.inl h''
          · exact Or.inr ⟨List.mem_cons_of_mem x hm, hww⟩
    · have hx' : isSpaceChar x = false := Bool.eq_false_iff.mpr hx
      rw [collapseGo_cons_not_ws b x rest hx'] at h
      rcases List.mem_cons.mp h with rfl | h'
      · exact Or.inr ⟨List.mem_cons_self c rest, hx'⟩
      · rcases ih false h' with h'' | ⟨hm, hww⟩
        · exact Or.inl h''
        · exact Or.inr ⟨List.mem_cons_of_mem x hm, hww⟩

theorem collapseGo_true_head :
    ∀ (l : List Char) (c : Char),
      (collapseGo true l).head? = some c → isSpaceChar c = false := by
  intro l
  induction l with
  | nil => intro c h; rw [collapseGo_nil] at h; cases h
  | cons x rest ih =>
    intro c h
    by_cases hx : isSpaceChar x = true
    · rw [collapseGo_true_cons_ws x rest hx] at h
      exact ih c h
    · have hx' : isSpaceChar x = false := Bool.eq_false_iff.mpr hx
      rw [collapseGo_cons_not_ws true x rest hx', List.head?_cons] at h
      obtain rfl := Option.some.inj h
      exact hx'

theorem noww_collapseGo : ∀ (b : Bool) (l : List Char),
    NoWW (collapseGo b l) := by
  intro b l
  induction l generalizing b with
  | nil => rw [collapseGo_nil]; exact List.chain'_nil
  | cons x rest ih =>
    by_cases hx : isSpaceChar x = true
    · cases b with
      | true => rw [collapseGo_true_cons_ws x rest hx]; exact ih true
      | false =>
        rw [collapseGo_false_cons_ws x rest hx]
        rcases hrest : collapseGo true rest with _ | ⟨y, t⟩
        · exact List.chain'_singleton ' '
        · have hy : isSpaceChar y = false :=
            collapseGo_true_head rest y (by rw [hrest]; rfl)
          rw [NoWW, List.chain'_cons]
          refine ⟨fun hc => ?_, ?_⟩
          · rw [hy] at hc; exact Bool.false_ne_true hc.2
          · have h2 := ih true; rw [NoWW, hrest] at h2; exact h2
    · have hx' : isSpaceChar x = false := Bool.eq_false_iff.mpr hx
      rw [collapseGo_cons_not_ws b x rest hx']
      rcases hrest : collapseGo false rest with _ | ⟨y, t⟩
      · exact List.chain'_singleton x
      · rw [NoWW, List.chain'_cons]
        refine ⟨fun hc => ?_, ?_⟩
        · rw [hx'] at hc; exact Bool.false_ne_true hc.1
        · have h2 := ih false; rw [NoWW, hrest] at h2; exact h2

theorem noww_dropWhile {p : Char → Bool} :
    ∀ {l : List Char}, NoWW l → NoWW (l.dropWhile p) := by
  intro l
  induction l with
  | nil => intro h; exact h
  | cons x rest ih =>
    intro h
    rw [List.dropWhile_cons]
    split_ifs with hx
    · exact ih (List.Chain'.tail h)
    · exact h

theorem noww_reverse {l : List Char} (h : NoWW l) : NoWW l.reverse := by
  rw [NoWW, List.chain'_reverse]
  exact h.imp (fun _ _ hab hba => hab ⟨hba.2, hba.1⟩)

theorem noww_pyStrip {l : List Char} (h : NoWW l) : NoWW (pyStrip l) :=
  noww_reverse (noww_dropWhile (noww_reverse (noww_dropWhile h)))

theorem dropWhile_head_not {p : Char → Bool} :
    ∀ {l : List Char} {c : Char},
      (l.dropWhile p).head? = some c → p c = false := by
  intro l
  induction l with
  | nil => intro c h; cases h
  | cons x rest ih =>
    intro c h
    rw [List.dropWhile_cons] at h
    split_ifs at h with hx
    · exact ih h
    · rw [List.head?_cons] at h
      obtain rfl := Option.some.inj h
      exact Bool.eq_false_iff.mpr hx

theorem pyStrip_last_not_ws {l : List Char} {c : Char}
    (h : (pyStrip l).getLast? = some c) : isSpaceChar c = false := by
  unfold pyStrip at h
  rw [List.getLast?_reverse] at h
  exact dropWhile_head_not h

theorem pyStrip_head_not_ws {l : List Char} {c : Char}
    (h : (pyStrip l).head? = some c) : isSpaceChar c = false := by
  unfold pyStrip at h
  rw [List.head?_reverse] at h
  obtain ⟨t, ht⟩ :=
    @List.dropWhile_suffix Char ((l.dropWhile isSpaceChar).reverse)
      isSpaceChar
  have h2 : ((l.dropWhile isSpaceChar).reverse).getLast? = some c := by
    rw [← ht, List.getLast?_append, h]
    rfl
  rw [List.getLast?_reverse] at h2
  exact dropWhile_head_not h2

theorem mem_pyStrip {l : List Char} {c : Char} (h : c ∈ pyStrip l) :
    c ∈ l := by
  unfold pyStrip at h
  rw [List.mem_reverse] at h
  have h2 := (List.dropWhile_suffix isSpaceChar).subset h
  rw [List.mem_reverse] at h2
  exact (List.dropWhile_suffix isSpaceChar).subset h2

/-! ## Identity of each normalizer stage on canonical strings -/

theorem flatMap_id_of {f : Char → List Char} :
    ∀ {l : List Char}, (∀ c ∈ l, f c = [c]) → l.flatMap f = l := by
  intro l
  induction l with
  | nil => intro _; rfl
  | cons x rest ih =>
    intro h
    rw [List.flatMap_cons, h x (List.mem_cons_self x rest),
      ih (fun c hc => h c (List.mem_cons_of_mem x hc))]
    rfl

theorem map_id_of {f : Char → Char} :
    ∀ {l : List Char}, (∀ c ∈ l, f c = c) → l.map f = l := by
  intro l
  induction l with
  | nil => intro _; rfl
  | cons x rest ih =>
    intro h
    rw [List.map_cons, h x (List.mem_cons_self x rest),
      ih (fun c hc => h c (List.mem_cons_of_mem x hc))]

theorem dropWhile_of_head {p : Char → Bool} {l : List Char}
    (h : ∀ c, l.head? = some c → p c = false) : l.dropWhile p = l := by
  cases l with
  | nil => rfl
  | cons x rest =>
    rw [List.dropWhile_cons, if_neg (by simp [h x rfl])]

theorem pyStrip_id {l : List Char}
    (hh : ∀ c, l.head? = some c → isSpaceChar c = false)
    (hl : ∀ c, l.getLast? = some c → isSpaceChar c = false) :
    pyStrip l = l := by
  unfold pyStrip
  rw [dropWhile_of_head hh]
  rw [dropWhile_of_head (fun c hc => hl c (by rwa [List.head?_reverse] at hc))]
  exact List.reverse_reverse l

theorem collapseGo_id : ∀ {l : List Char},
    (∀ c ∈ l, isSpaceChar c = true → c = ' ') → NoWW l →
    (collapseGo false l = l ∧
      ((∀ c, l.head? = some c → isSpaceChar c = false) →
        collapseGo true l = l)) := by
  intro l
  induction l with
  | nil => intro _ _; exact ⟨rfl, fun _ => rfl⟩
  | cons x rest ih =>
    intro hsp hnw
    have hrest := ih (fun c hc => hsp c (List.mem_cons_of_mem x hc))
      (List.Chain'.tail hnw)
    by_cases hx : isSpaceChar x = true
    · have hx' : x = ' ' := hsp x (List.mem_cons_self x rest) hx
      constructor
      · rw [collapseGo_false_cons_ws x rest hx, hx']
        congr 1
        apply hrest.2
        intro c hc
        cases rest with
        | nil => cases hc
        | cons y t =>
          rw [List.head?_cons] at hc
          have hyc : y = c := Option.some.inj hc
          subst hyc
          rw [NoWW, List.chain'_cons] at hnw
          cases hws : isSpaceChar y with
          | false => rfl
          | true => exact absurd ⟨hx, hws⟩ hnw.1
      · intro hhead
        have h0 := hhead x rfl
        rw [hx] at h0
        cases h0
    · have hx' : isSpaceChar x = false := Bool.eq_false_iff.mpr hx
      constructor
      · rw [collapseGo_cons_not_ws false x rest hx', hrest.1]
      · intro _
        rw [collapseGo_cons_not_ws true x rest hx', hrest.1]

/-! ## The normalized string is canonical -/

theorem mem_normPipe {punct s : List Char} {c : Char}
    (h : c ∈ normPipe punct s) : safeChar c ∨ c = ' ' := by
  unfold normPipe at h
  have h1 := mem_pyStrip h
  rcases mem_collapseGo false _ h1 with rfl | ⟨h2, hws⟩
  · exact Or.inr rfl
  · rcases List.mem_map.mp h2 with ⟨c1, hc1, hc1e⟩
    unfold sub2 at hc1e
    split_ifs at hc1e with hclass
    · subst hc1e
      rcases List.mem_map.mp hc1 with ⟨c2, hc2, hc2e⟩
      unfold sub1 at hc2e
      split_ifs at hc2e with hpunct
      · subst hc2e
        rw [show isSpaceChar ' ' = true from rfl] at hws
        cases hws
      · subst hc2e
        obtain ⟨c3, _, hc3⟩ := List.mem_flatMap.mp hc2
        exact Or.inl (safe_of_class hclass hws (nfkd_not_bad hc3))
    · subst hc1e
      rw [show isSpaceChar ' ' = true from rfl] at hws
      cases hws

theorem normPipe_ws_is_space {punct s : List Char} {c : Char}
    (h : c ∈ normPipe punct s) (hw : isSpaceChar c = true) : c = ' ' := by
  rcases mem_normPipe h with hs | rfl
  · rw [safe_not_ws hs] at hw; cases hw
  · rfl

theorem noww_normPipe (punct s : List Char) : NoWW (normPipe punct s) :=
  noww_pyStrip (noww_collapseGo false _)

theorem normPipe_head_not_ws {punct s : List Char} {c : Char}
    (h : (normPipe punct s).head? = some c) : isSpaceChar c = false :=
  pyStrip_head_not_ws h

theorem normPipe_last_not_ws {punct s : List Char} {c : Char}
    (h : (normPipe punct s).getLast? = some c) : isSpaceChar c = false :=
  pyStrip_last_not_ws h

/-- On a canonical string (safe characters and single interior spaces)
every stage of the pipeline is the identity. -/
theorem normPipe_fixed {punct : List Char}
    (hp : ∀ c : Char, safeChar c → c ∉ punct) (hsp : (' ' : Char) ∉ punct)
    {y : List Char}
    (hchars : ∀ c ∈ y, safeChar c ∨ c = ' ')
    (hnw : NoWW y)
    (hh : ∀ c, y.head? = some c → isSpaceChar c = false)
    (hl : ∀ c, y.getLast? = some c → isSpaceChar c = false) :
    normPipe punct y = y := by
  have hws_sp : ∀ c ∈ y, isSpaceChar c = true → c = ' ' := by
    intro c hc hcw
    rcases hchars c hc with hs | rfl
    · rw [safe_not_ws hs] at hcw; cases hcw
    · rfl
  have h1 : y.flatMap pyLowerChar = y := flatMap_id_of (fun c hc => by
    rcases hchars c hc with hs | rfl
    · exact safe_lower hs
    · rfl)
  have h2 : pyStrip y = y := pyStrip_id hh hl
  have h3 : y.flatMap nfkdChar = y := flatMap_id_of (fun c hc => by
    rcases hchars c hc with hs | rfl
    · exact safe_nfkd hs
    · rfl)
  have h4 : y.map (sub1 punct) = y := map_id_of (fun c hc => by
    unfold sub1
    rw [if_neg]
    rcases hchars c hc with hs | rfl
    · exact hp c hs
    · exact hsp)
  have h5 : y.map sub2 = y := map_id_of (fun c hc => by
    have hcl : inClassQ c = true := by
      rcases hchars c hc with hs | rfl
      · exact safe_inClass hs
      · rfl
    unfold sub2
    rw [if_pos hcl])
  have h6 : collapseGo false y = y := (collapseGo_id hws_sp hnw).1
  unfold normPipe
  rw [h1, h2, h3, h4, h5, h6, h2]

theorem normPipe_idem {punct : List Char}
    (hp : ∀ c : Char, safeChar c → c ∉ punct) (hsp : (' ' : Char) ∉ punct)
    (s : List Char) :
    normPipe punct (normPipe punct s) = normPipe punct s := by
  apply normPipe_fixed hp hsp
  · exact fun c hc => mem_normPipe hc
  · exact noww_normPipe punct s
  · exact fun c hc => normPipe_head_not_ws hc
  · exact fun c hc => normPipe_last_not_ws hc

theorem safe_notin_punct_query {c : Char} (hs : safeChar c) :
    c ∉ (['_', '/', '-', '\\'] : List Char) := by
  intro hmem
  have hn : c.toNat = 95 ∨ c.toNat = 47 ∨ c.toNat = 45 ∨ c.toNat = 92 := by
    simp only [List.mem_cons, List.not_mem_nil, or_false] at hmem
    rcases hmem with rfl | rfl | rfl | rfl
    · exact Or.inl rfl
    · exact Or.inr (Or.inl rfl)
    · exact Or.inr (Or.inr (Or.inl rfl))
    · exact Or.inr (Or.inr (Or.inr rfl))
  rcases hs with ⟨a, b⟩ | ⟨a, b⟩ | a <;> omega

theorem safe_notin_punct_text {c : Char} (hs : safeChar c) :
    c ∉ (['_', '-', '/'] : List Char) := by
  intro hmem
  have hn : c.toNat = 95 ∨ c.toNat = 45 ∨ c.toNat = 47 := by
    simp only [List.mem_cons, List.not_mem_nil, or_false] at hmem
    rcases hmem with rfl | rfl | rfl
    · exact Or.inl rfl
    · exact Or.inr (Or.inl rfl)
    · exact Or.inr (Or.inr rfl)
  rcases hs with ⟨a, b⟩ | ⟨a, b⟩ | a <;> omega

/-- C5: the query normalizer is idempotent — normalizing twice equals
normalizing once (for both `norm_query` and the functionally parallel
`norm_text`) — and a non-string input is treated as the empty string. -/
theorem norm_query_idempotent :
    (∀ s : List Char, norm_query (norm_query s) = norm_query s) ∧
    norm_query_py none = [] ∧
    (∀ s : List Char, norm_text (norm_text s) = norm_text s) ∧
    norm_text_py none = [] := by
  refine ⟨fun s => ?_, rfl, fun s => ?_, rfl⟩
  · exact normPipe_idem (fun c hs => safe_notin_punct_query hs)
      (by decide) s
  · exact normPipe_idem (fun c hs => safe_notin_punct_text hs)
      (by decide) s

/-! ## Consequences of the argsort contract -/

theorem pairwise_take_drop {R : ℕ → ℕ → Prop} {l : List ℕ}
    (h : l.Pairwise R) (k : ℕ) :
    ∀ i ∈ l.take k, ∀ j ∈ l.drop k, R i j := by
  have h2 : (l.take k ++ l.drop k).Pairwise R := by
    rw [List.take_append_drop]
    exact h
  exact (List.pairwise_append.mp h2).2.2

theorem isArgsortAsc_length {v : List ℚ} {ord : List ℕ}
    (h : IsArgsortAsc v ord) : ord.length = v.length := by
  rw [h.1.length_eq, List.length_range]

theorem isArgsortAsc_mem {v : List ℚ} {ord : List ℕ}
    (h : IsArgsortAsc v ord) {i : ℕ} : i ∈ ord ↔ i < v.length := by
  rw [h.1.mem_iff, List.mem_range]

theorem isArgsortAsc_nodup {v : List ℚ} {ord : List ℕ}
    (h : IsArgsortAsc v ord) : ord.Nodup :=
  h.1.symm.nodup (List.nodup_range v.length)

theorem isArgsortDesc_length {v : List ℚ} {ord : List ℕ}
    (h : IsArgsortDesc v ord) : ord.length = v.length := by
  rw [h.1.length_eq, List.length_range]

theorem isArgsortDesc_mem {v : List ℚ} {ord : List ℕ}
    (h : IsArgsortDesc v ord) {i : ℕ} : i ∈ ord ↔ i < v.length := by
  rw [h.1.mem_iff, List.mem_range]

theorem isArgsortDesc_nodup {v : List ℚ} {ord : List ℕ}
    (h : IsArgsortDesc v ord) : ord.Nodup :=
  h.1.symm.nodup (List.nodup_range v.length)

/-! ## C2: lexical recall ranking -/

/-- C2 (amended): for every query with a non-empty normalized form, for
every `np.argsort` implementation satisfying its contract (the tie
order being unspecified by NumPy), `retrieve_ids` returns at most
`topk` distinct candidates whose similarities dominate every
non-returned candidate's, with the parallel score list in
descending-score order.  No tie rule is asserted: the claimed
lower-index-first tie-breaking is refuted by the counterexample (where
the underlying sort really is stable and the reversal puts the higher
index first). -/
theorem retrieve_ids_ranked (argsort : List ℚ → List ℕ)
    (simsOf : List Char → List ℚ) (id_list : List String)
    (query : Option (List Char)) (topk : ℕ)
    (hq : norm_query_py query ≠ [])
    (hsort : IsArgsortAsc (simsOf (norm_query_py query))
      (argsort (simsOf (norm_query_py query)))) :
    ∀ sims, sims = simsOf (norm_query_py query) →
      retrieve_ids argsort simsOf id_list query topk =
        ((retrieveOrder argsort sims topk).map
          (fun i => id_list.getD i ""),
         (retrieveOrder argsort sims topk).map
          (fun i => sims.getD i 0)) ∧
      (retrieveOrder argsort sims topk).length = min topk sims.length ∧
      (retrieveOrder argsort sims topk).Nodup ∧
      (∀ i ∈ retrieveOrder argsort sims topk, i < sims.length) ∧
      (∀ i ∈ retrieveOrder argsort sims topk, ∀ j, j < sims.length →
        j ∉ retrieveOrder argsort sims topk →
        sims.getD j 0 ≤ sims.getD i 0) ∧
      ((retrieveOrder argsort sims topk).map
        (fun i => sims.getD i 0)).Pairwise (fun a b => b ≤ a) := by
  rintro sims rfl
  set sims := simsOf (norm_query_py query) with hsims
  have hpw : ((argsort sims).reverse).Pairwise
      (fun i j => sims.getD j 0 ≤ sims.getD i 0) :=
    List.pairwise_reverse.mpr hsort.2
  have horder : ∀ i ∈ retrieveOrder argsort sims topk,
      i < sims.length := by
    intro i hi
    have h1 : i ∈ (argsort sims).reverse :=
      (List.take_sublist topk _).subset hi
    rw [List.mem_reverse] at h1
    exact (isArgsortAsc_mem hsort).mp h1
  refine ⟨?_, ?_, ?_, horder, ?_, ?_⟩
  · unfold retrieve_ids
    rw [if_neg hq]
  · unfold retrieveOrder
    rw [List.length_take, List.length_reverse, isArgsortAsc_length hsort]
  · exact ((List.nodup_reverse.mpr
      (isArgsortAsc_nodup hsort)).sublist (List.take_sublist topk _))
  · intro i hi j hj hnot
    have hdrop : j ∈ ((argsort sims).reverse).drop topk := by
      have hmem : j ∈ (argsort sims).reverse := by
        rw [List.mem_reverse]
        exact (isArgsortAsc_mem hsort).mpr hj
      rw [← List.take_append_drop topk ((argsort sims).reverse),
        List.mem_append] at hmem
      rcases hmem with h | h
      · exact absurd h hnot
      · exact h
    exact pairwise_take_drop hpw topk i hi j hdrop
  · rw [List.pairwise_map]
    exact List.Pairwise.sublist (List.take_sublist topk _) hpw

theorem retrieve_ids_ranked_witness :
    (retrieveOrder argsortAsc [9, 1, 5] 2).length = min 2 3 :=
  (retrieve_ids_ranked argsortAsc (fun _ => [9, 1, 5]) ["A", "B", "C"]
    (some ['m']) 2 (by decide) (by decide) [9, 1, 5] rfl).2.1

/-- C2 counterexample: on two exactly tied similarities the code returns
the higher original row index first, not the lower: with
`sims = [1, 1]` over IDs `["A", "B"]` the result is `["B", "A"]`.  The
instantiated `argsortAsc` satisfies the argsort contract and — the
array being far below NumPy's insertion-sort threshold — coincides with
what `np.argsort` actually computes here. -/
theorem retrieve_ids_tie_descending :
    (retrieve_ids argsortAsc (fun _ => [1, 1]) ["A", "B"] (some ['a'])
      2).1 = ["B", "A"] ∧
    (retrieve_ids argsortAsc (fun _ => [1, 1]) ["A", "B"] (some ['a'])
      2).1 ≠ ["A", "B"] ∧
    IsArgsortAsc [1, 1] (argsortAsc [1, 1]) := by
  refine ⟨?_, ?_, ?_⟩
  · decide
  · decide
  · decide

/-! ## C1: fusion-stage top-K and the order of the returned rows -/

/-- C1 (amended): for every `np.argsort` implementation satisfying its
contract, the fusion-stage selection `np.argsort(-final)[:topk_final]`
returns at most `k` distinct candidate indices, in descending
fused-score order, all of whose fused scores dominate every unselected
candidate's (no tie rule is asserted — NumPy leaves the tie order
unspecified); the rows `ml_search` returns are then sorted by `_row`,
i.e. emitted in ascending original-candidate-index order (TF-IDF
retrieval order), each carrying its fused score — not in descending
fused-score order. -/
theorem ml_search_topk_row_order (argsortNeg : List ℚ → List ℕ)
    (final : List ℚ) (k : ℕ)
    (hsort : IsArgsortDesc final (argsortNeg final)) :
    (select_top_k argsortNeg final k).length ≤ k ∧
    (select_top_k argsortNeg final k).Nodup ∧
    (∀ i ∈ select_top_k argsortNeg final k, i < final.length) ∧
    ((select_top_k argsortNeg final k).map
      (fun i => final.getD i 0)).Pairwise (fun a b => b ≤ a) ∧
    (∀ i ∈ select_top_k argsortNeg final k, ∀ j, j < final.length →
      j ∉ select_top_k argsortNeg final k →
      final.getD j 0 ≤ final.getD i 0) ∧
    (ml_search_rows argsortNeg final k).Pairwise
      (fun p q => p.1 < q.1) ∧
    (∀ p ∈ ml_search_rows argsortNeg final k,
      p.1 ∈ select_top_k argsortNeg final k ∧
      p.2 = final.getD p.1 0) ∧
    (∀ i ∈ select_top_k argsortNeg final k,
      (i, final.getD i 0) ∈ ml_search_rows argsortNeg final k) := by
  have hmem : ∀ i ∈ select_top_k argsortNeg final k, i < final.length := by
    intro i hi
    exact (isArgsortDesc_mem hsort).mp ((List.take_sublist k _).subset hi)
  refine ⟨?_, ?_, hmem, ?_, ?_, ?_, ?_, ?_⟩
  · exact List.length_take_le k _
  · exact (isArgsortDesc_nodup hsort).sublist (List.take_sublist k _)
  · rw [List.pairwise_map]
    exact List.Pairwise.sublist (List.take_sublist k _) hsort.2
  · intro i hi j hj hnot
    have hdrop : j ∈ (argsortNeg final).drop k := by
      have hjm : j ∈ argsortNeg final := (isArgsortDesc_mem hsort).mpr hj
      rw [← List.take_append_drop k (argsortNeg final),
        List.mem_append] at hjm
      rcases hjm with h | h
      · exact absurd h hnot
      · exact h
    exact pairwise_take_drop hsort.2 k i hi j hdrop
  · unfold ml_search_rows
    rw [List.pairwise_map]
    exact List.Pairwise.sublist (List.filter_sublist _)
      (List.pairwise_lt_range _)
  · intro p hp
    unfold ml_search_rows at hp
    rcases List.mem_map.mp hp with ⟨i, hi, rfl⟩
    have h2 := List.mem_filter.mp hi
    exact ⟨of_decide_eq_true h2.2, rfl⟩
  · intro i hi
    unfold ml_search_rows
    refine List.mem_map.mpr ⟨i, List.mem_filter.mpr ⟨?_, ?_⟩, rfl⟩
    · exact List.mem_range.mpr (hmem i hi)
    · exact decide_eq_true hi

theorem ml_search_topk_row_order_witness :
    (select_top_k argsortDesc [1, 2] 1).length ≤ 1 :=
  (ml_search_topk_row_order argsortDesc [1, 2] 1 (by decide)).1

/-- C1 counterexample: with fused scores `[1, 2]` and `k = 2` the rows
come back as `[(0, 1), (1, 2)]` — ascending original index — whose
score column `[1, 2]` is not in descending order.  The scores are
distinct, so *every* contract-satisfying argsort yields this result;
the instantiated `argsortDesc` is one such (third conjunct). -/
theorem ml_search_rows_not_score_sorted :
    ml_search_rows argsortDesc [1, 2] 2 = [(0, 1), (1, 2)] ∧
    ¬ ((ml_search_rows argsortDesc [1, 2] 2).map Prod.snd).Pairwise
        (fun a b => b ≤ a) ∧
    IsArgsortDesc [1, 2] (argsortDesc [1, 2]) := by
  refine ⟨?_, ?_, ?_⟩
  · decide
  · decide
  · decide

/-! ## C4: minmax normalization -/

theorem foldl_min_le_init : ∀ (l : List ℚ) (a : ℚ), l.foldl min a ≤ a := by
  intro l
  induction l with
  | nil => intro a; exact le_refl a
  | cons x t ih =>
    intro a
    exact le_trans (ih (min a x)) (min_le_left a x)

theorem foldl_min_le_mem :
    ∀ (l : List ℚ) (a : ℚ), ∀ v ∈ l, l.foldl min a ≤ v := by
  intro l
  induction l with
  | nil => intro a v hv; cases hv
  | cons x t ih =>
    intro a v hv
    rcases List.mem_cons.mp hv with rfl | hv'
    · exact le_trans (foldl_min_le_init t (min a v)) (min_le_right a v)
    · exact ih (min a x) v hv'

theorem le_foldl_max_init : ∀ (l : List ℚ) (a : ℚ), a ≤ l.foldl max a := by
  intro l
  induction l with
  | nil => intro a; exact le_refl a
  | cons x t ih =>
    intro a
    exact le_trans (le_max_left a x) (ih (max a x))

theorem le_foldl_max_mem :
    ∀ (l : List ℚ) (a : ℚ), ∀ v ∈ l, v ≤ l.foldl max a := by
  intro l
  induction l with
  | nil => intro a v hv; cases hv
  | cons x t ih =>
    intro a v hv
    rcases List.mem_cons.mp hv with rfl | hv'
    · exact le_trans (le_max_right a v) (le_foldl_max_init t (max a v))
    · exact ih (max a x) v hv'

theorem foldl_min_const :
    ∀ (l : List ℚ) (a : ℚ), (∀ v ∈ l, v = a) → l.foldl min a = a := by
  intro l
  induction l with
  | nil => intro a _; rfl
  | cons z t ih =>
    intro a h
    have hz : z = a := h z (List.mem_cons_self z t)
    rw [List.foldl_cons, hz, min_self]
    exact ih a (fun v hv => h v (List.mem_cons_of_mem z hv))

theorem foldl_max_const :
    ∀ (l : List ℚ) (a : ℚ), (∀ v ∈ l, v = a) → l.foldl max a = a := by
  intro l
  induction l with
  | nil => intro a _; rfl
  | cons z t ih =>
    intro a h
    have hz : z = a := h z (List.mem_cons_self z t)
    rw [List.foldl_cons, hz, max_self]
    exact ih a (fun v hv => h v (List.mem_cons_of_mem z hv))

theorem minmax_cons (x : ℚ) (xs : List ℚ) :
    minmax (x :: xs) =
      if xs.foldl min x < xs.foldl max x then
        (x :: xs).map (fun v =>
          (v - xs.foldl min x) /
            (xs.foldl max x - xs.foldl min x + minmaxEps))
      else (x :: xs).map (fun _ => 0) := rfl

/-- C4: `minmax` preserves length, maps every element into `[0, 1]`,
maps the empty array to the empty array, and maps any all-equal array
(including singletons) to all zeros. -/
theorem minmax_props (a : List ℚ) :
    (minmax a).length = a.length ∧
    (∀ y ∈ minmax a, 0 ≤ y ∧ y ≤ 1) ∧
    minmax ([] : List ℚ) = [] ∧
    ((∀ x ∈ a, ∀ z ∈ a, x = z) → ∀ y ∈ minmax a, y = 0) := by
  cases a with
  | nil =>
    refine ⟨rfl, ?_, rfl, ?_⟩
    · intro y hy; cases hy
    · intro _ y hy; cases hy
  | cons x xs =>
    rw [minmax_cons]
    have heps : (0 : ℚ) < minmaxEps := by norm_num [minmaxEps]
    split_ifs with h
    · have hpos : 0 < xs.foldl max x - xs.foldl min x + minmaxEps := by
        have h1 : (0 : ℚ) < xs.foldl max x - xs.foldl min x :=
          sub_pos.mpr h
        linarith
      refine ⟨List.length_map _ _, ?_, rfl, ?_⟩
      · intro y hy
        rcases List.mem_map.mp hy with ⟨v, hv, rfl⟩
        have hmn : xs.foldl min x ≤ v := by
          rcases List.mem_cons.mp hv with rfl | hv'
          · exact foldl_min_le_init xs v
          · exact foldl_min_le_mem xs x v hv'
        have hmx : v ≤ xs.foldl max x := by
          rcases List.mem_cons.mp hv with rfl | hv'
          · exact le_foldl_max_init xs v
          · exact le_foldl_max_mem xs x v hv'
        constructor
        · exact div_nonneg (sub_nonneg.mpr hmn) (le_of_lt hpos)
        · rw [div_le_one hpos]
          linarith
      · intro heq y hy
        exfalso
        have hall : ∀ v ∈ xs, v = x := fun v hv =>
          heq v (List.mem_cons_of_mem x hv) x (List.mem_cons_self x xs)
        rw [foldl_min_const xs x hall, foldl_max_const xs x hall] at h
        exact lt_irrefl x h
    · refine ⟨List.length_map _ _, ?_, rfl, ?_⟩
      · intro y hy
        rcases List.mem_map.mp hy with ⟨v, _, rfl⟩
        exact ⟨le_refl 0, by norm_num⟩
      · intro _ y hy
        rcases List.mem_map.mp hy with ⟨v, _, rfl⟩
        rfl

theorem minmax_props_witness :
    (minmax [3, 3, 3]).length = 3 ∧ ∀ y ∈ minmax [3, 3, 3], y = 0 :=
  ⟨(minmax_props [3, 3, 3]).1,
   (minmax_props [3, 3, 3]).2.2.2 (by decide)⟩

theorem norm_query_idempotent_witness :
    norm_query (norm_query ['A', '_', 'ç']) = norm_query ['A', '_', 'ç'] :=
  norm_query_idempotent.1 ['A', '_', 'ç']

/-! ## C9: reranker document text -/

/-- C9: `build_doc_text` agrees with the spec's description on every
input — title skipped when empty or equal to the placeholder `"Ürün"`,
level2 skipped when empty, leaf skipped when empty or equal to level2,
single-space joined, placeholder when everything is skipped. -/
theorem build_doc_text_spec_eq :
    (∀ t l2 lf : String, build_doc_text t l2 lf = doc_text_spec t l2 lf) ∧
    build_doc_text "" "" "" = "Ürün" ∧
    build_doc_text "Ürün" "Kadın Giyim" "Kadın Giyim" = "Kadın Giyim" := by
  refine ⟨?_, by decide, by decide⟩
  intro t l2 lf
  simp only [build_doc_text, doc_text_spec]
  split_ifs <;> first | rfl | tauto

theorem build_doc_text_spec_eq_witness :
    build_doc_text "mavi elbise" "" "" = doc_text_spec "mavi elbise" "" "" :=
  build_doc_text_spec_eq.1 "mavi elbise" "" ""

/-! ## C7: derived discount percentage -/

/-- C7 (amended): `format_product_response` computes
`round(100·(original − selling)/original, 1)` exactly when
`original > 0`, `selling ≠ 0` and `original > selling` (Python's guard
`original and selling and original > selling and original > 0`), and
yields null otherwise — in particular when `original` is 0 or when
`original ≤ selling`; a *negative* selling price still produces a
discount value, unlike the claim's `original > selling > 0` condition. -/
theorem format_discount_characterization :
    (∀ o s : Option ℚ, format_discount o s ≠ none ↔
      (∃ ov sv, o = some ov ∧ s = some sv ∧ 0 < ov ∧ sv ≠ 0 ∧ sv < ov)) ∧
    (∀ ov sv : ℚ, 0 < ov → sv ≠ 0 → sv < ov →
      format_discount (some ov) (some sv) =
        some (round1 ((ov - sv) / ov * 100))) ∧
    format_discount (some 100) (some 80) = some 20 ∧
    format_discount (some 0) (some 80) = none := by
  have hcomp : ∀ ov sv : ℚ, 0 < ov → sv ≠ 0 → sv < ov →
      format_discount (some ov) (some sv) =
        some (round1 ((ov - sv) / ov * 100)) := by
    intro ov sv h1 h2 h3
    show (if ov ≠ 0 ∧ sv ≠ 0 ∧ sv < ov ∧ 0 < ov then
        some (round1 ((ov - sv) / ov * 100)) else none) =
      some (round1 ((ov - sv) / ov * 100))
    rw [if_pos ⟨ne_of_gt h1, h2, h3, h1⟩]
  refine ⟨?_, hcomp, ?_, ?_⟩
  · intro o s
    constructor
    · intro h
      match o, s with
      | none, none => exact absurd rfl h
      | none, some sv => exact absurd rfl h
      | some ov, none => exact absurd rfl h
      | some ov, some sv =>
        refine ⟨ov, sv, rfl, rfl, ?_⟩
        have h' : (if ov ≠ 0 ∧ sv ≠ 0 ∧ sv < ov ∧ 0 < ov then
            some (round1 ((ov - sv) / ov * 100)) else none) ≠ none := h
        by_cases hc : ov ≠ 0 ∧ sv ≠ 0 ∧ sv < ov ∧ 0 < ov
        · exact ⟨hc.2.2.2, hc.2.1, hc.2.2.1⟩
        · rw [if_neg hc] at h'
          exact absurd rfl h'
    · rintro ⟨ov, sv, rfl, rfl, h1, h2, h3⟩
      rw [hcomp ov sv h1 h2 h3]
      exact Option.some_ne_none _
  · rw [hcomp 100 80 (by norm_num) (by norm_num) (by norm_num)]
    norm_num [round1, roundHalfEven]
  · show (if (0 : ℚ) ≠ 0 ∧ (80 : ℚ) ≠ 0 ∧ (80 : ℚ) < 0 ∧ (0 : ℚ) < 0 then
        some (round1 ((0 - 80) / 0 * 100)) else none) = none
    rw [if_neg]
    rintro ⟨h0, -, -, -⟩
    exact h0 rfl

theorem format_discount_characterization_witness :
    format_discount (some 100) (some 80) = some 20 :=
  format_discount_characterization.2.2.1

/-- C7 counterexample: with `original = 10` and `selling = -5` the code
emits `discount_percentage = 150.0` although the claim requires null
whenever `selling ≤ 0`. -/
theorem format_discount_negative_selling :
    format_discount (some 10) (some (-5)) = some 150 ∧
    format_discount (some 10) (some (-5)) ≠ none := by
  have h : format_discount (some 10) (some (-5)) = some 150 := by
    norm_num [format_discount, round1, roundHalfEven]
  exact ⟨h, by rw [h]; exact Option.some_ne_none _⟩

/-! ## C6: catalog left join with defaults -/

theorem filter_key_eq_nil {fe : List FeRow} {id : String}
    (h : id ∉ fe.map (fun r => r.content_id_hashed)) :
    fe.filter (fun r => r.content_id_hashed == id) = [] := by
  rw [List.filter_eq_nil_iff]
  intro r hr hbeq
  exact h (List.mem_map.mpr ⟨r, hr, beq_iff_eq.mp hbeq⟩)

theorem filter_key_of_nodup :
    ∀ {fe : List FeRow} {id : String},
      (fe.map (fun r => r.content_id_hashed)).Nodup →
      fe.filter (fun r => r.content_id_hashed == id) =
        (fe.find? (fun r => r.content_id_hashed == id)).toList := by
  intro fe
  induction fe with
  | nil => intro id _; rfl
  | cons r t ih =>
    intro id hnd
    rw [List.map_cons, List.nodup_cons] at hnd
    by_cases hr : (r.content_id_hashed == id) = true
    · have hid : r.content_id_hashed = id := beq_iff_eq.mp hr
      rw [List.filter_cons, if_pos hr, List.find?_cons, hr,
        filter_key_eq_nil (hid ▸ hnd.1)]
      rfl
    · have hrf : (r.content_id_hashed == id) = false :=
        Bool.eq_false_iff.mpr hr
      rw [List.filter_cons, if_neg hr, List.find?_cons, hrf]
      exact ih hnd.2

theorem joinCatalogML_eq_map {ids : List String} {fe : List FeRow}
    (hnd : (fe.map (fun r => r.content_id_hashed)).Nodup) :
    joinCatalogML ids fe =
      ids.map (fun id => fillRowML (lookupRow fe id)) := by
  unfold joinCatalogML
  induction ids with
  | nil => rfl
  | cons id rest ih =>
    rw [List.flatMap_cons, List.map_cons, ih, ← List.singleton_append]
    rw [filter_key_of_nodup hnd]
    unfold lookupRow
    cases hf : fe.find? (fun r => r.content_id_hashed == id) with
    | none => rfl
    | some r => rfl

theorem lookupRow_key (fe : List FeRow) (id : String) :
    (lookupRow fe id).content_id_hashed = id := by
  unfold lookupRow
  cases hf : fe.find? (fun r => r.content_id_hashed == id) with
  | none => rfl
  | some r =>
    have := List.find?_some hf
    exact beq_iff_eq.mp this

theorem fillRowML_key (r : FeRow) :
    (fillRowML r).content_id_hashed = r.content_id_hashed := rfl

/-- C6 (amended): the `ml_search` catalog join is a left join producing,
for unique snapshot keys, exactly one row per requested ID in the input
order; an ID absent from the snapshot yields a row whose numeric
attributes — *including* the rating average, which is filled with `0.0`
rather than left null — default to 0/0.0, whose title defaults to the
placeholder `"Ürün"`, and whose category/image text attributes default
to the empty string. -/
theorem joinCatalogML_left_join (ids : List String) (fe : List FeRow)
    (hnd : (fe.map (fun r => r.content_id_hashed)).Nodup) :
    joinCatalogML ids fe =
      ids.map (fun id => fillRowML (lookupRow fe id)) ∧
    (joinCatalogML ids fe).length = ids.length ∧
    (joinCatalogML ids fe).map (fun r => r.content_id_hashed) = ids ∧
    (∀ id, id ∉ fe.map (fun r => r.content_id_hashed) →
      fillRowML (lookupRow fe id) =
        { content_id_hashed := id, content_title := some "Ürün",
          image_url := some "", selling_price := some 0,
          original_price := some 0, discounted_price := some 0,
          content_rate_avg := some 0, content_review_count := some 0,
          content_rate_count := some 0, merchant_count := some 0,
          level1_category_name := some "",
          level2_category_name := some "",
          leaf_category_name := some "" }) := by
  have hmap : joinCatalogML ids fe =
      ids.map (fun id => fillRowML (lookupRow fe id)) :=
    joinCatalogML_eq_map hnd
  refine ⟨hmap, ?_, ?_, ?_⟩
  · rw [hmap, List.length_map]
  · rw [hmap, List.map_map]
    have : ∀ id ∈ ids,
        ((fun r => r.content_id_hashed) ∘
          fun id => fillRowML (lookupRow fe id)) id = id := by
      intro id _
      simp only [Function.comp]
      rw [fillRowML_key, lookupRow_key]
    calc ids.map _ = ids.map id := List.map_congr_left this
    _ = ids := List.map_id ids
  · intro id hid
    have hf : fe.find? (fun r => r.content_id_hashed == id) = none := by
      rw [List.find?_eq_none]
      intro r hr hbeq
      exact hid (List.mem_map.mpr ⟨r, hr, beq_iff_eq.mp hbeq⟩)
    unfold lookupRow
    rw [hf]
    rfl

theorem joinCatalogML_left_join_witness :
    (joinCatalogML ["A", "X"] [{ content_id_hashed := "A" }]).length = 2 :=
  (joinCatalogML_left_join ["A", "X"] [{ content_id_hashed := "A" }]
    (by decide)).2.1

/-- C6 counterexample: an ID absent from the snapshot gets
`content_rate_avg = 0.0`, not null — the join fills the nullable rating
with `fill_null(0.0)` like every other numeric column. -/
theorem joinCatalog_rating_zero :
    (joinCatalogML ["X"] []).map (fun r => r.content_rate_avg) =
      [some 0] ∧
    (joinCatalogML ["X"] []).map (fun r => r.content_rate_avg) ≠
      [none] := by
  constructor
  · decide
  · decide

/-! ## C8: empty normalized query short-circuits recall -/

/-- C8: whenever the normalized query is empty (empty string,
whitespace-only, or a non-string `none`), both recall engines return the
empty candidate pair, for *every* similarity-search oracle — i.e. the
result does not depend on the search, which is never consulted. -/
theorem empty_query_empty_recall (query : Option (List Char)) :
    (norm_query_py query = [] →
      ∀ (argsort : List ℚ → List ℕ) (simsOf : List Char → List ℚ)
        (id_list : List String) (k : ℕ),
        retrieve_ids argsort simsOf id_list query k = ([], [])) ∧
    (norm_text_py query = [] →
      ∀ (loaded : Bool)
        (search : List Char → ℕ → List String × List ℚ) (k : ℕ),
        sbert_recall loaded search query k = ([], [])) := by
  constructor
  · intro h argsort simsOf id_list k
    unfold retrieve_ids
    rw [if_pos h]
  · intro h loaded search k
    unfold sbert_recall
    cases loaded with
    | false => rw [if_pos rfl]
    | true =>
      rw [if_neg (by simp), if_pos h]

theorem empty_query_empty_recall_witness :
    retrieve_ids argsortAsc (fun _ => [1]) ["A"] (some [' ', '\t']) 5 =
      ([], []) ∧
    sbert_recall true (fun _ _ => (["A"], [1])) (some [' ', '\t']) 5 =
      ([], []) :=
  ⟨(empty_query_empty_recall (some [' ', '\t'])).1 (by decide) _ _ _ _,
   (empty_query_empty_recall (some [' ', '\t'])).2 (by decide) _ _ _⟩

/-! ## C3: semantic mode with the reranker absent -/

/-- C3 (code bug): with the dense-recall models and the catalog snapshot
available but `reranker = None`, any query whose recall is non-empty
makes `hybrid_semantic_search` evaluate `reranker.score(...)`
(`ai_model.py` line 338) *before* the `reranker is not None` test of
line 344, so the call raises `AttributeError` instead of falling back to
recall-only ranking; the SBERT-only fallback branch (lines 350-353) and
the startup comment (`main.py` line 146, "works even without the
reranker") show the fallback was the intent. -/
theorem hybrid_reranker_none_raises (fe : List FeRow)
    (search : List Char → ℕ → List String × List ℚ)
    (query : Option (List Char)) (recall_k return_k : ℕ)
    (h : (sbert_recall true search query recall_k).1 ≠ []) :
    hybrid_semantic_search true (some fe) none search query recall_k
        return_k =
      Except.error
        "AttributeError: NoneType object has no attribute score" := by
  simp only [hybrid_semantic_search]
  rw [if_neg h]

theorem hybrid_reranker_none_raises_witness :
    hybrid_semantic_search true (some []) none
        (fun _ _ => (["P1"], [1])) (some ['a']) 10 5 =
      Except.error
        "AttributeError: NoneType object has no attribute score" :=
  hybrid_reranker_none_raises [] (fun _ _ => (["P1"], [1])) (some ['a'])
    10 5 (by decide)

/-! ## C10: catalog-only search sampling -/

/-- C10 (amended): provided the sampler returns exactly the requested
number of rows (polars `sample(n)` with `n ≤ len`), `db_search` on a
blank query or on a query matching no row returns
`min(limit, catalog size)` sampled products — non-empty whenever
`limit ≥ 1` and the catalog is non-empty, but empty when `limit = 0`;
and when more than `2·limit` rows match, the returned rows are drawn
from a random subsample of exactly `2·limit` matches taken before
sorting, so two identical calls may return different products (the
sampler is the source of randomness: two valid samplers can give
different results). -/
theorem db_search_sampling (sampler : List FeRow → ℕ → List FeRow)
    (matchRow : FeRow → Bool) (df : List FeRow) (query : List Char)
    (limit : ℕ)
    (hs : ∀ (xs : List FeRow) (n : ℕ), n ≤ xs.length →
      (sampler xs n).length = n) :
    (pyStrip (query.flatMap pyLowerChar) = [] →
      (db_search sampler matchRow df query limit).length =
        min limit df.length ∧
      (1 ≤ limit → df ≠ [] →
        db_search sampler matchRow df query limit ≠ [])) ∧
    (df.filter matchRow = [] →
      (db_search sampler matchRow df query limit).length =
        min limit df.length) ∧
    (pyStrip (query.flatMap pyLowerChar) ≠ [] →
      limit * 2 < (df.filter matchRow).length →
      db_search sampler matchRow df query limit =
        (List.insertionSort ratingRel
          (sampler (df.filter matchRow) (limit * 2))).take limit ∧
      (sampler (df.filter matchRow) (limit * 2)).length = limit * 2 ∧
      (∀ r ∈ db_search sampler matchRow df query limit,
        r ∈ sampler (df.filter matchRow) (limit * 2))) ∧
    (∃ s1 s2 : List FeRow → ℕ → List FeRow,
      (∀ (xs : List FeRow) (n : ℕ), n ≤ xs.length →
        (s1 xs n).length = n) ∧
      (∀ (xs : List FeRow) (n : ℕ), n ≤ xs.length →
        (s2 xs n).length = n) ∧
      db_search s1 (fun _ => true)
          [{ content_id_hashed := "A" }, { content_id_hashed := "B" }]
          [] 1 ≠
        db_search s2 (fun _ => true)
          [{ content_id_hashed := "A" }, { content_id_hashed := "B" }]
          [] 1) := by
  have hrand : (db_search sampler matchRow df query limit).length =
      min limit df.length →
      1 ≤ limit → df ≠ [] →
      db_search sampler matchRow df query limit ≠ [] := by
    intro hlen h1 hne
    have hpos : 0 < df.length := List.length_pos.mpr hne
    have : 0 < (db_search sampler matchRow df query limit).length := by
      rw [hlen]
      omega
    exact List.ne_nil_of_length_pos this
  refine ⟨?_, ?_, ?_, ?_⟩
  · intro hblank
    have heq : db_search sampler matchRow df query limit =
        sampler df (min limit df.length) := by
      unfold db_search
      rw [if_neg (fun hne => hne hblank)]
    have hlen : (db_search sampler matchRow df query limit).length =
        min limit df.length := by
      rw [heq]
      exact hs df (min limit df.length) (min_le_right _ _)
    exact ⟨hlen, hrand hlen⟩
  · intro hfil
    by_cases hq : pyStrip (query.flatMap pyLowerChar) ≠ []
    · have heq : db_search sampler matchRow df query limit =
          sampler df (min limit df.length) := by
        unfold db_search
        rw [if_pos hq, hfil]
        rw [if_neg (by simp)]
      rw [heq]
      exact hs df (min limit df.length) (min_le_right _ _)
    · have hblank : pyStrip (query.flatMap pyLowerChar) = [] := by
        by_contra hc
        exact hq hc
      have heq : db_search sampler matchRow df query limit =
          sampler df (min limit df.length) := by
        unfold db_search
        rw [if_neg (fun hne => hne hblank)]
      rw [heq]
      exact hs df (min limit df.length) (min_le_right _ _)
  · intro hq hbig
    have hpos : 0 < (df.filter matchRow).length := by omega
    have hmin : min (limit * 2) (df.filter matchRow).length =
        limit * 2 := min_eq_left (le_of_lt hbig)
    have heq : db_search sampler matchRow df query limit =
        (List.insertionSort ratingRel
          (sampler (df.filter matchRow) (limit * 2))).take limit := by
      simp only [db_search]
      rw [if_pos hq, if_pos hpos, hmin, if_pos hbig]
    refine ⟨heq, hs _ _ (le_of_lt hbig), ?_⟩
    intro r hr
    rw [heq] at hr
    have h2 : r ∈ List.insertionSort ratingRel
        (sampler (df.filter matchRow) (limit * 2)) :=
      (List.take_sublist limit _).subset hr
    exact (List.perm_insertionSort ratingRel _).mem_iff.mp h2
  · refine ⟨fun xs n => xs.take n, fun xs n => xs.reverse.take n,
      ?_, ?_, ?_⟩
    · intro xs n hn
      rw [List.length_take]
      omega
    · intro xs n hn
      rw [List.length_take, List.length_reverse]
      omega
    · decide

theorem db_search_sampling_witness :
    (db_search (fun xs n => xs.take n) (fun _ => true)
      [{ content_id_hashed := "A" }] [] 3).length = min 3 1 :=
  ((db_search_sampling (fun xs n => xs.take n) (fun _ => true)
      [{ content_id_hashed := "A" }] [] 3
      (fun xs n hn => by rw [List.length_take]; omega)).1 rfl).1

/-- C10 counterexample: with `limit = 0` and a non-empty catalog the
blank-query path returns `min(0, 1) = 0` sampled products, i.e. the
empty list, contradicting "never an empty list". -/
theorem db_search_limit_zero_empty :
    db_search (fun xs n => xs.take n) (fun _ => true)
        [{ content_id_hashed := "A" }] [] 0 = [] ∧
    ([{ content_id_hashed := "A" }] : List FeRow) ≠ [] := by
  constructor
  · decide
  · decide
